import Mathlib

/-!
Verification of the theremin note-envelope synthesis engine
(src/main.cpp and src/Options.cpp).

C++ doubles are modelled as rationals wherever the code performs only
field arithmetic and comparisons; the waveform generator, which calls
sin, is modelled over the reals.  The envelope coefficient
exp(-dt * decay) computed once per callback invocation is abstracted as
a parameter c together with the hypotheses 0 < c and c < 1, which record
the range of exp at a strictly negative argument (dt > 0 and decay > 0).
-/

namespace Theremin

/-- One sounding pitch with its envelope state (struct Note in
main.cpp): frequency, volume and start are const; amplitude and target
mutate. -/
structure Note where
  frequency : ℚ
  volume : ℚ
  start : ℚ
  amplitude : ℚ
  target : ℚ

instance : Inhabited Note := ⟨⟨0, 0, 0, 0, 0⟩⟩

/-- Global synthesis state (struct AudioData in main.cpp, minus the SDL
device handle, which carries no synthesis data). -/
structure AudioData where
  t : ℚ
  dt : ℚ
  decay : ℚ
  threshold : ℚ
  type : ℤ
  notes : List Note

/-- addNote from main.cpp (lines 120-146): force the current front
note's target to 0, compute the new note's start anchor - shifted for
phase continuity when the new frequency is nonzero, the plain current
time otherwise - and push the new note (amplitude 0, target 1) at the
front.  On an empty stack the C++ code would read notes.front() out of
bounds; the model leaves the state unchanged there (the never-empty
invariant shows this case is unreachable). -/
def addNote (audioData : AudioData) (frequency volume : ℚ) : AudioData :=
  match audioData.notes with
  | [] => audioData
  | top :: rest =>
    let start : ℚ :=
      if frequency ≠ 0 then
        audioData.t - (audioData.t - top.start) * top.frequency / frequency
      else
        audioData.t
    { audioData with
        notes := ⟨frequency, volume, start, 0, 1⟩ :: { top with target := 0 } :: rest }

/-- One envelope smoother update of one amplitude (main.cpp lines
96-101): step towards the target g with coefficient c, then snap to g
when the distance falls below the threshold th. -/
def envStep (c th g a : ℚ) : ℚ :=
  let a' := g + (a - g) * c
  if |a' - g| < th then g else a'

/-- The per-note mutation performed by the callback loop body: the
amplitude is stepped, every other field is untouched. -/
def stepNote (c th : ℚ) (n : Note) : Note :=
  { n with amplitude := envStep c th n.target n.amplitude }

/-- The callback traversal of the voice stack for one sample (main.cpp
lines 87-111): each note's amplitude is stepped in place, and a note
whose new amplitude is exactly 0 is erased.  The accumulated audio
value w reads the state but never writes it, so it does not appear in
the state transition. -/
def sampleNotes (c th : ℚ) : List Note → List Note
  | [] => []
  | n :: rest =>
    let n' := stepNote c th n
    if n'.amplitude = 0 then sampleNotes c th rest else n' :: sampleNotes c th rest

/-- One sample tick of the synthesis callback: traverse and update the
voice stack, then advance global time by dt (main.cpp line 116).  Here
c stands for the coefficient exp(-dt * decay) precomputed at line 77. -/
def sampleStep (c : ℚ) (audioData : AudioData) : AudioData :=
  { audioData with
      notes := sampleNotes c audioData.threshold audioData.notes
      t := audioData.t + audioData.dt }

/-- The synthesis state built by openAudio (main.cpp lines 167-176):
time 0, decay 50, threshold 0.0000001, waveform type 0, and the single
rest note (frequency 0, volume 0, start 0, amplitude 1, target 1).
dt is 1 / (negotiated sample rate) and is kept as a parameter. -/
def initState (dt : ℚ) : AudioData :=
  { t := 0
    dt := dt
    decay := 50
    threshold := 1 / 10000000
    type := 0
    notes := [⟨0, 0, 0, 1, 1⟩] }

/-- States reachable by the program: openAudio's initial state followed
by any interleaving of addNote calls (control thread) and per-sample
callback steps.  The callback coefficient exp(-dt * decay) always lies
in (0, 1) because dt > 0 and decay = 50 > 0; the sample constructor
records exactly that range. -/
inductive Reach : AudioData → Prop
  | init (dt : ℚ) (hdt : 0 < dt) : Reach (initState dt)
  | add (st : AudioData) (f v : ℚ) (h : Reach st) : Reach (addNote st f v)
  | sample (st : AudioData) (c : ℚ) (hc0 : 0 < c) (hc1 : c < 1) (h : Reach st) :
      Reach (sampleStep c st)

/-- Unfolding of addNote on a non-empty stack. -/
theorem addNote_cons (st : AudioData) (f v : ℚ) (top : Note) (rest : List Note)
    (h : st.notes = top :: rest) :
    addNote st f v =
      { st with
          notes :=
            ⟨f, v,
                if f ≠ 0 then st.t - (st.t - top.start) * top.frequency / f else st.t,
                0, 1⟩ ::
              { top with target := 0 } :: rest } := by
  unfold addNote
  rw [h]

/-- A state used to instantiate theorems with hypotheses at a concrete
input. -/
def exampleState : AudioData :=
  { t := 1
    dt := 1 / 48000
    decay := 50
    threshold := 1 / 10000000
    type := 0
    notes := [⟨2, 1, 0, 1, 1⟩] }

/-- C1: phase continuity of note replacement.  For addNote with nonzero
frequency f called at time t on the stack top :: rest, the old front
note's phase top.frequency * (t - top.start) and the inserted note B's
phase B.frequency * (t - B.start) agree modulo 1 at the replacement
instant: their difference is an integer (in fact 0). -/
theorem addNote_phase_continuity (st : AudioData) (f v : ℚ) (top : Note)
    (rest : List Note) (hnotes : st.notes = top :: rest) (hf : f ≠ 0) :
    ∃ k : ℤ,
      top.frequency * (st.t - top.start) -
          (addNote st f v).notes.headI.frequency *
            (st.t - (addNote st f v).notes.headI.start) = (k : ℚ) := by
  refine ⟨0, ?_⟩
  rw [addNote_cons st f v top rest hnotes]
  simp only [List.headI, if_pos hf]
  field_simp
  ring

/-- Instantiation of the phase-continuity theorem at a concrete state
and frequency. -/
theorem addNote_phase_continuity_witness :
    exampleState.notes = (⟨2, 1, 0, 1, 1⟩ : Note) :: [] ∧ (3 : ℚ) ≠ 0 ∧
      ∃ k : ℤ,
        (⟨2, 1, 0, 1, 1⟩ : Note).frequency *
              (exampleState.t - (⟨2, 1, 0, 1, 1⟩ : Note).start) -
            (addNote exampleState 3 5).notes.headI.frequency *
              (exampleState.t - (addNote exampleState 3 5).notes.headI.start) = (k : ℚ) :=
  ⟨rfl, by norm_num,
    addNote_phase_continuity exampleState 3 5 ⟨2, 1, 0, 1, 1⟩ [] rfl (by norm_num)⟩

/-- C6: effect and frame of addNote.  On stack top :: rest the call
inserts a new front note with the given frequency and volume, amplitude
0 and target 1; the former front note keeps every field except its
target, which becomes exactly 0; the remaining notes and the global
fields t, dt, decay, threshold and waveform type are unchanged. -/
theorem addNote_effect (st : AudioData) (f v : ℚ) (top : Note) (rest : List Note)
    (hnotes : st.notes = top :: rest) :
    ∃ s : ℚ,
      (addNote st f v).notes = ⟨f, v, s, 0, 1⟩ :: { top with target := 0 } :: rest ∧
        (addNote st f v).t = st.t ∧
        (addNote st f v).dt = st.dt ∧
        (addNote st f v).decay = st.decay ∧
        (addNote st f v).threshold = st.threshold ∧
        (addNote st f v).type = st.type := by
  rw [addNote_cons st f v top rest hnotes]
  exact ⟨_, rfl, rfl, rfl, rfl, rfl, rfl⟩

/-- Instantiation of the addNote effect and frame theorem at a concrete
state. -/
theorem addNote_effect_witness :
    exampleState.notes = (⟨2, 1, 0, 1, 1⟩ : Note) :: [] ∧
      ∃ s : ℚ,
        (addNote exampleState 3 5).notes =
            (⟨3, 5, s, 0, 1⟩ : Note) :: (⟨2, 1, 0, 1, 0⟩ : Note) :: [] ∧
          (addNote exampleState 3 5).t = exampleState.t ∧
          (addNote exampleState 3 5).dt = exampleState.dt ∧
          (addNote exampleState 3 5).decay = exampleState.decay ∧
          (addNote exampleState 3 5).threshold = exampleState.threshold ∧
          (addNote exampleState 3 5).type = exampleState.type :=
  ⟨rfl, addNote_effect exampleState 3 5 ⟨2, 1, 0, 1, 1⟩ [] rfl⟩

/-- C7: zero-frequency guard.  When addNote is called with frequency 0,
the phase-continuity shift - the only place dividing by the new
frequency - is skipped, and the inserted note's start anchor is exactly
the current global time t. -/
theorem addNote_zero_frequency (st : AudioData) (v : ℚ) (top : Note)
    (rest : List Note) (hnotes : st.notes = top :: rest) :
    (addNote st 0 v).notes.headI.start = st.t := by
  rw [addNote_cons st 0 v top rest hnotes]
  simp

/-- Instantiation of the zero-frequency guard theorem at a concrete
state. -/
theorem addNote_zero_frequency_witness :
    exampleState.notes = (⟨2, 1, 0, 1, 1⟩ : Note) :: [] ∧
      (addNote exampleState 0 5).notes.headI.start = exampleState.t :=
  ⟨rfl, addNote_zero_frequency exampleState 5 ⟨2, 1, 0, 1, 1⟩ [] rfl⟩

/-- The envelope step written with the snap test on the stepped
distance. -/
theorem envStep_eq (c th g b : ℚ) :
    envStep c th g b = if |(b - g) * c| < th then g else g + (b - g) * c := by
  simp only [envStep]
  have h : g + (b - g) * c - g = (b - g) * c := by ring
  rw [h]

/-- The target is a fixed point of the envelope step. -/
theorem envStep_self (c th g : ℚ) : envStep c th g g = g := by
  rw [envStep_eq]
  split <;> simp

/-- Closed form of the iterated envelope step: either some step already
snapped to the target, or the distance has been scaled by the n-th power
of the coefficient. -/
theorem envStep_iterate_cases (c th g a : ℚ) (n : ℕ) :
    (envStep c th g)^[n] a = g ∨ (envStep c th g)^[n] a = g + (a - g) * c ^ n := by
  induction n with
  | zero => right; simp
  | succ n ih =>
    rw [Function.iterate_succ_apply']
    rcases ih with h | h
    · left
      rw [h, envStep_self]
    · rw [h, envStep_eq]
      have he : (g + (a - g) * c ^ n - g) * c = (a - g) * c ^ (n + 1) := by ring
      rw [he]
      split
      · exact Or.inl rfl
      · exact Or.inr rfl

/-- C2: envelope termination and stability.  For any starting amplitude
a and fixed target g, if the threshold is positive and the coefficient
exp(-dt * decay) - abstracted as c - lies in (0, 1), then iterating the
smoother step followed by the snap rule reaches exactly g after
finitely many steps and stays there, and g itself is left unchanged by
a step. -/
theorem envStep_terminates (c th g a : ℚ) (hth : 0 < th) (hc0 : 0 < c)
    (hc1 : c < 1) :
    (∃ N, ∀ m, N ≤ m → (envStep c th g)^[m] a = g) ∧ envStep c th g g = g := by
  refine ⟨?_, envStep_self c th g⟩
  obtain ⟨N, hN⟩ : ∃ N : ℕ, |a - g| * c ^ N < th := by
    rcases eq_or_ne a g with rfl | hag
    · exact ⟨0, by simpa using hth⟩
    · have habs : 0 < |a - g| := abs_pos.mpr (sub_ne_zero.mpr hag)
      obtain ⟨N, hN⟩ := exists_pow_lt_of_lt_one (div_pos hth habs) hc1
      have h2 := (lt_div_iff₀ habs).mp hN
      exact ⟨N, by linarith [h2, mul_comm (c ^ N) |a - g|]⟩
  have hfix : (envStep c th g)^[N + 1] a = g := by
    rcases envStep_iterate_cases c th g a N with h | h
    · rw [Function.iterate_succ_apply', h, envStep_self]
    · rw [Function.iterate_succ_apply', h, envStep_eq]
      have he : (g + (a - g) * c ^ N - g) * c = (a - g) * (c ^ N * c) := by ring
      rw [he]
      have hcN : (0 : ℚ) < c ^ N := pow_pos hc0 N
      have hval : |(a - g) * (c ^ N * c)| = |a - g| * (c ^ N * c) := by
        rw [abs_mul, abs_of_pos (mul_pos hcN hc0)]
      have hcond : |(a - g) * (c ^ N * c)| < th := by
        rw [hval]
        nlinarith [abs_nonneg (a - g), hN]
      rw [if_pos hcond]
  refine ⟨N + 1, fun m hm => ?_⟩
  obtain ⟨k, rfl⟩ := Nat.exists_eq_add_of_le hm
  rw [Nat.add_comm, Function.iterate_add_apply, hfix,
    Function.iterate_fixed (envStep_self c th g) k]

/-- Instantiation of the envelope termination theorem at coefficient
1/2, threshold 1/4, target 0 and starting amplitude 1. -/
theorem envStep_terminates_witness :
    (0 : ℚ) < 1 / 4 ∧ (0 : ℚ) < 1 / 2 ∧ (1 : ℚ) / 2 < 1 ∧
      ((∃ N, ∀ m, N ≤ m → (envStep (1 / 2) (1 / 4) 0)^[m] (1 : ℚ) = 0) ∧
        envStep (1 / 2) (1 / 4) 0 0 = 0) :=
  ⟨by norm_num, by norm_num, by norm_num,
    envStep_terminates (1 / 2) (1 / 4) 0 1 (by norm_num) (by norm_num) (by norm_num)⟩

/-- One envelope step never increases the distance to the target. -/
theorem envStep_abs_le (c th g b : ℚ) (hc0 : 0 ≤ c) (hc1 : c ≤ 1) :
    |envStep c th g b - g| ≤ |b - g| := by
  rw [envStep_eq]
  split
  · simp
  · have h : g + (b - g) * c - g = (b - g) * c := by ring
    rw [h, abs_mul, abs_of_nonneg hc0]
    nlinarith [abs_nonneg (b - g)]

/-- One envelope step lands between its input and the target. -/
theorem envStep_between (c th g b : ℚ) (hc0 : 0 ≤ c) (hc1 : c ≤ 1) :
    min b g ≤ envStep c th g b ∧ envStep c th g b ≤ max b g := by
  rw [envStep_eq]
  split
  · exact ⟨min_le_right b g, le_max_right b g⟩
  · rcases le_total b g with h | h
    · rw [min_eq_left h, max_eq_right h]
      constructor <;> nlinarith
    · rw [min_eq_right h, max_eq_left h]
      constructor <;> nlinarith

/-- C3: no overshoot.  For every starting amplitude a, target g and
coefficient c in (0, 1), after any number of envelope steps (snap rule
included) the amplitude stays in the closed interval between a and g,
and the distance to the target never increases from one step to the
next. -/
theorem envStep_no_overshoot (c th g a : ℚ) (hc0 : 0 < c) (hc1 : c < 1) (n : ℕ) :
    (min a g ≤ (envStep c th g)^[n] a ∧ (envStep c th g)^[n] a ≤ max a g) ∧
      |(envStep c th g)^[n + 1] a - g| ≤ |(envStep c th g)^[n] a - g| := by
  constructor
  · induction n with
    | zero => simp [min_le_left a g, le_max_left a g]
    | succ n ih =>
      rw [Function.iterate_succ_apply']
      obtain ⟨h1, h2⟩ := ih
      obtain ⟨h3, h4⟩ := envStep_between c th g ((envStep c th g)^[n] a) hc0.le hc1.le
      constructor
      · exact le_trans (le_min h1 (min_le_right a g)) h3
      · exact le_trans h4 (max_le h2 (le_max_right a g))
  · rw [Function.iterate_succ_apply']
    exact envStep_abs_le c th g _ hc0.le hc1.le

/-- Instantiation of the no-overshoot theorem at coefficient 1/2,
threshold 1/4, target 0, starting amplitude 1 and step count 3. -/
theorem envStep_no_overshoot_witness :
    (0 : ℚ) < 1 / 2 ∧ (1 : ℚ) / 2 < 1 ∧
      ((min (1 : ℚ) 0 ≤ (envStep (1 / 2) (1 / 4) 0)^[3] (1 : ℚ) ∧
          (envStep (1 / 2) (1 / 4) 0)^[3] (1 : ℚ) ≤ max (1 : ℚ) 0) ∧
        |(envStep (1 / 2) (1 / 4) 0)^[3 + 1] (1 : ℚ) - 0| ≤
          |(envStep (1 / 2) (1 / 4) 0)^[3] (1 : ℚ) - 0|) :=
  ⟨by norm_num, by norm_num,
    envStep_no_overshoot (1 / 2) (1 / 4) 0 1 (by norm_num) (by norm_num) 3⟩

/-- The traversal keeps exactly the stepped notes whose new amplitude
is nonzero, in order. -/
theorem sampleNotes_eq_filter_map (c th : ℚ) (l : List Note) :
    sampleNotes c th l =
      (l.map (stepNote c th)).filter fun n => decide (n.amplitude ≠ 0) := by
  induction l with
  | nil => rfl
  | cons n rest ih =>
    simp only [sampleNotes, List.map_cons, List.filter_cons]
    by_cases h : (stepNote c th n).amplitude = 0
    · rw [if_pos h, ih]
      simp [h]
    · rw [if_neg h, ih]
      simp [h]

/-- Unfolding of the traversal on a front note that survives. -/
theorem sampleNotes_cons_of_ne (c th : ℚ) (m : Note) (rest : List Note)
    (h : (stepNote c th m).amplitude ≠ 0) :
    sampleNotes c th (m :: rest) = stepNote c th m :: sampleNotes c th rest := by
  simp only [sampleNotes]
  rw [if_neg h]

/-- Every note produced by the traversal is the stepped image of a note
of the input stack. -/
theorem mem_sampleNotes (c th : ℚ) (l : List Note) (n : Note)
    (hn : n ∈ sampleNotes c th l) : ∃ m ∈ l, n = stepNote c th m := by
  rw [sampleNotes_eq_filter_map] at hn
  obtain ⟨m, hm, rfl⟩ := List.mem_map.mp (List.mem_of_mem_filter hn)
  exact ⟨m, hm, rfl⟩

/-- A note being pulled towards target 1 from an amplitude in [0, 1]
has a strictly positive amplitude after one envelope step. -/
theorem envStep_target_one_pos (c th a : ℚ) (hc0 : 0 < c) (hc1 : c < 1)
    (ha0 : 0 ≤ a) (ha1 : a ≤ 1) : 0 < envStep c th 1 a := by
  rw [envStep_eq]
  split
  · exact one_pos
  · nlinarith

/-- With a target of 0 or 1, an envelope step keeps the amplitude in
[0, 1]. -/
theorem envStep_mem_unit (c th g a : ℚ) (hc0 : 0 ≤ c) (hc1 : c ≤ 1)
    (hg : g = 0 ∨ g = 1) (ha0 : 0 ≤ a) (ha1 : a ≤ 1) :
    0 ≤ envStep c th g a ∧ envStep c th g a ≤ 1 := by
  rw [envStep_eq]
  rcases hg with rfl | rfl <;> split <;> constructor <;> nlinarith

/-- C4: removal rule of the per-sample traversal.  A note is erased
exactly when its amplitude after the envelope step is 0 (the surviving
list is precisely the stepped list filtered by nonzero amplitude), and
- with the coefficient in (0, 1) - a note whose amplitude is in [0, 1]
and whose target is the nonzero value 1 has nonzero stepped amplitude,
so it is never removed. -/
theorem sampleNotes_removal_rule (c th : ℚ) (l : List Note) (hc0 : 0 < c)
    (hc1 : c < 1) :
    sampleNotes c th l =
        ((l.map (stepNote c th)).filter fun n => decide (n.amplitude ≠ 0)) ∧
      ∀ n ∈ l, 0 ≤ n.amplitude → n.amplitude ≤ 1 → n.target = 1 →
        (stepNote c th n).amplitude ≠ 0 := by
  refine ⟨sampleNotes_eq_filter_map c th l, fun n _ h0 h1 ht => ?_⟩
  show envStep c th n.target n.amplitude ≠ 0
  rw [ht]
  exact (envStep_target_one_pos c th n.amplitude hc0 hc1 h0 h1).ne'

/-- Instantiation of the removal-rule theorem on a one-note stack whose
note has target 1 and amplitude 1/2. -/
theorem sampleNotes_removal_rule_witness :
    (0 : ℚ) < 1 / 2 ∧ (1 : ℚ) / 2 < 1 ∧
      (stepNote (1 / 2) (1 / 100) ⟨440, 1, 0, 1 / 2, 1⟩).amplitude ≠ 0 :=
  ⟨by norm_num, by norm_num,
    (sampleNotes_removal_rule (1 / 2) (1 / 100) [⟨440, 1, 0, 1 / 2, 1⟩]
          (by norm_num) (by norm_num)).2
      ⟨440, 1, 0, 1 / 2, 1⟩ (by simp) (by norm_num) (by norm_num) rfl⟩

/-- The state invariant maintained by every reachable state: the stack
is non-empty, its front note has target 1, every older note has target
0, and every amplitude lies in [0, 1]. -/
def Inv (st : AudioData) : Prop :=
  (∃ top rest, st.notes = top :: rest ∧ top.target = 1 ∧ ∀ n ∈ rest, n.target = 0) ∧
    ∀ n ∈ st.notes, 0 ≤ n.amplitude ∧ n.amplitude ≤ 1

/-- The invariant holds in every reachable state. -/
theorem reach_inv (st : AudioData) (h : Reach st) : Inv st := by
  induction h with
  | init dt hdt =>
    refine ⟨⟨⟨0, 0, 0, 1, 1⟩, [], rfl, rfl, by simp⟩, ?_⟩
    intro n hn
    rw [List.mem_singleton.mp hn]
    norm_num
  | add st f v h ih =>
    obtain ⟨⟨top, rest, hnotes, htop, hrest⟩, hamp⟩ := ih
    rw [addNote_cons st f v top rest hnotes]
    constructor
    · refine ⟨_, _, rfl, rfl, ?_⟩
      intro n hn
      rcases List.mem_cons.mp hn with rfl | hn
      · rfl
      · exact hrest n hn
    · intro n hn
      rcases List.mem_cons.mp hn with rfl | hn
      · norm_num
      · rcases List.mem_cons.mp hn with rfl | hn
        · exact hamp top (hnotes ▸ List.mem_cons_self top rest)
        · exact hamp n (hnotes ▸ List.mem_cons_of_mem top hn)
  | sample st c hc0 hc1 h ih =>
    obtain ⟨⟨top, rest, hnotes, htop, hrest⟩, hamp⟩ := ih
    have htopamp := hamp top (hnotes ▸ List.mem_cons_self top rest)
    have hstep : (stepNote c st.threshold top).amplitude ≠ 0 := by
      show envStep c st.threshold top.target top.amplitude ≠ 0
      rw [htop]
      exact (envStep_target_one_pos c st.threshold top.amplitude hc0 hc1
        htopamp.1 htopamp.2).ne'
    have hns : (sampleStep c st).notes =
        stepNote c st.threshold top :: sampleNotes c st.threshold rest := by
      show sampleNotes c st.threshold st.notes = _
      rw [hnotes, sampleNotes_cons_of_ne c st.threshold top rest hstep]
    constructor
    · refine ⟨_, _, hns, htop, ?_⟩
      intro n hn
      obtain ⟨m, hm, rfl⟩ := mem_sampleNotes c st.threshold rest n hn
      exact hrest m hm
    · intro n hn
      rw [hns] at hn
      rcases List.mem_cons.mp hn with rfl | hn
      · show 0 ≤ envStep c st.threshold top.target top.amplitude ∧
          envStep c st.threshold top.target top.amplitude ≤ 1
        exact envStep_mem_unit c st.threshold top.target top.amplitude
          hc0.le hc1.le (Or.inr htop) htopamp.1 htopamp.2
      · obtain ⟨m, hm, rfl⟩ := mem_sampleNotes c st.threshold rest n hn
        have hmamp := hamp m (hnotes ▸ List.mem_cons_of_mem top hm)
        show 0 ≤ envStep c st.threshold m.target m.amplitude ∧
          envStep c st.threshold m.target m.amplitude ≤ 1
        exact envStep_mem_unit c st.threshold m.target m.amplitude
          hc0.le hc1.le (Or.inl (hrest m hm)) hmamp.1 hmamp.2

/-- C5: the voice stack is never empty.  In every state reachable from
openAudio's initial state by addNote calls and callback sample steps,
the notes list has at least one element, so the front read performed by
addNote is well-defined. -/
theorem notes_never_empty (st : AudioData) (h : Reach st) : st.notes ≠ [] := by
  obtain ⟨⟨top, rest, hnotes, _, _⟩, _⟩ := reach_inv st h
  rw [hnotes]
  exact List.cons_ne_nil top rest

/-- Instantiation of the never-empty theorem at the initial state. -/
theorem notes_never_empty_witness :
    (0 : ℚ) < 1 / 48000 ∧ (initState (1 / 48000)).notes ≠ [] :=
  ⟨by norm_num, notes_never_empty _ (Reach.init (1 / 48000) (by norm_num))⟩

/-- C10: unique rising note.  In every reachable state each note's
target is exactly 0 or 1, exactly one note has target 1 - the front of
the stack - and every amplitude lies in [0, 1]; moreover a callback
traversal never changes any surviving note's target. -/
theorem unique_rising_note (st : AudioData) (h : Reach st) :
    (∀ n ∈ st.notes, n.target = 0 ∨ n.target = 1) ∧
      (∃ top rest, st.notes = top :: rest ∧ top.target = 1 ∧
        ∀ n ∈ rest, n.target = 0) ∧
      (∀ n ∈ st.notes, 0 ≤ n.amplitude ∧ n.amplitude ≤ 1) ∧
      ∀ c : ℚ, ∀ n ∈ sampleNotes c st.threshold st.notes,
        ∃ m ∈ st.notes, n.target = m.target := by
  obtain ⟨⟨top, rest, hnotes, htop, hrest⟩, hamp⟩ := reach_inv st h
  refine ⟨?_, ⟨top, rest, hnotes, htop, hrest⟩, hamp, ?_⟩
  · intro n hn
    rw [hnotes] at hn
    rcases List.mem_cons.mp hn with rfl | hn
    · exact Or.inr htop
    · exact Or.inl (hrest n hn)
  · intro c n hn
    obtain ⟨m, hm, rfl⟩ := mem_sampleNotes c st.threshold st.notes n hn
    exact ⟨m, hm, rfl⟩

/-- Instantiation of the unique-rising-note theorem at the initial
state. -/
theorem unique_rising_note_witness :
    (0 : ℚ) < 1 / 48000 ∧
      ∃ top rest, (initState (1 / 48000)).notes = top :: rest ∧ top.target = 1 ∧
        ∀ n ∈ rest, n.target = 0 :=
  ⟨by norm_num,
    (unique_rising_note _ (Reach.init (1 / 48000) (by norm_num))).2.1⟩

/-- sawtooth from main.cpp (line 10): period 1, range [-1, 1]. -/
noncomputable def sawtooth (x : ℝ) : ℝ :=
  2 * (x - (⌊1 / 2 + x⌋ : ℝ))

/-- triangle from main.cpp (line 16): period 1, range [-1, 1]. -/
noncomputable def triangle (x : ℝ) : ℝ :=
  2 * |sawtooth x| - 1

/-- square from main.cpp (line 22): 1 when the fractional part of x
exceeds 1/2, else 0. -/
noncomputable def square (x : ℝ) : ℝ :=
  if x - (⌊x⌋ : ℝ) > 1 / 2 then 1 else 0

/-- wave from main.cpp (line 27): the shape is selected with the C++
remainder type % 4 (truncated division, Int.tmod); a remainder outside
0..3 - which occurs exactly for a negative type not divisible by 4 -
falls through to the default branch returning 0. -/
noncomputable def wave (x : ℝ) (type : ℤ) : ℝ :=
  let m := Int.tmod type 4
  if m = 0 then Real.sin (2 * Real.pi * x)
  else if m = 1 then sawtooth x
  else if m = 2 then triangle x
  else if m = 3 then square x
  else 0

/-- Modelled from the spec's words, for comparison with wave: variants
selected by type mod 4, with mod read as the mathematical remainder
Int.emod, which always lands in 0..3. -/
noncomputable def waveSpecSelect (x : ℝ) (type : ℤ) : ℝ :=
  let m := Int.emod type 4
  if m = 0 then Real.sin (2 * Real.pi * x)
  else if m = 1 then sawtooth x
  else if m = 2 then triangle x
  else if m = 3 then square x
  else 0

/-- The sawtooth shape stays in [-1, 1]. -/
theorem sawtooth_bounds (x : ℝ) : -1 ≤ sawtooth x ∧ sawtooth x ≤ 1 := by
  unfold sawtooth
  have h1 : (⌊1 / 2 + x⌋ : ℝ) ≤ 1 / 2 + x := Int.floor_le _
  have h2 : 1 / 2 + x < (⌊1 / 2 + x⌋ : ℝ) + 1 := Int.lt_floor_add_one _
  constructor <;> linarith

/-- The triangle shape stays in [-1, 1]. -/
theorem triangle_bounds (x : ℝ) : -1 ≤ triangle x ∧ triangle x ≤ 1 := by
  unfold triangle
  obtain ⟨h1, h2⟩ := sawtooth_bounds x
  have h3 : |sawtooth x| ≤ 1 := abs_le.mpr ⟨h1, h2⟩
  have h4 : 0 ≤ |sawtooth x| := abs_nonneg _
  constructor <;> linarith

/-- The square shape stays in [0, 1]. -/
theorem square_bounds (x : ℝ) : 0 ≤ square x ∧ square x ≤ 1 := by
  unfold square
  split <;> norm_num

/-- Every waveform value lies in [-1, 1]. -/
theorem wave_bounds (x : ℝ) (type : ℤ) : -1 ≤ wave x type ∧ wave x type ≤ 1 := by
  simp only [wave]
  split_ifs
  · exact ⟨Real.neg_one_le_sin _, Real.sin_le_one _⟩
  · exact sawtooth_bounds x
  · exact triangle_bounds x
  · obtain ⟨h0, h1⟩ := square_bounds x
    constructor <;> linarith
  · norm_num

/-- C9 (amended): waveform generator contract.  For every real phase x
and integer type the result lies in [-1, 1]; for nonnegative type the
shape is selected by type mod 4 exactly as the spec lists the four
variants; and whenever the square branch is taken (C++ remainder 3) the
result lies in [0, 1].  For a negative type not divisible by 4 the C++
remainder is negative and wave returns 0 (see the counterexample). -/
theorem wave_contract (x : ℝ) (type : ℤ) :
    (-1 ≤ wave x type ∧ wave x type ≤ 1) ∧
      (0 ≤ type → wave x type = waveSpecSelect x type) ∧
      (Int.tmod type 4 = 3 → 0 ≤ wave x type ∧ wave x type ≤ 1) := by
  refine ⟨wave_bounds x type, fun ht => ?_, fun h3 => ?_⟩
  · have hm : Int.tmod type 4 = Int.emod type 4 :=
      Int.tmod_eq_emod ht (by norm_num)
    simp only [wave, waveSpecSelect, hm]
  · have hw : wave x type = square x := by
      simp only [wave, h3]
      norm_num
    rw [hw]
    exact square_bounds x

/-- Instantiation of the waveform contract at phase 1/4 with types 1
and 3, discharging the nonnegative-type and square-branch
hypotheses. -/
theorem wave_contract_witness :
    ((0 : ℤ) ≤ 1 ∧ wave (1 / 4) 1 = waveSpecSelect (1 / 4) 1) ∧
      (Int.tmod 3 4 = 3 ∧ 0 ≤ wave (1 / 4) 3 ∧ wave (1 / 4) 3 ≤ 1) :=
  ⟨⟨by norm_num, (wave_contract (1 / 4) 1).2.1 (by norm_num)⟩,
    ⟨by decide, (wave_contract (1 / 4) 3).2.2 (by decide)⟩⟩

/-- C9 counterexample: at type = -1 the C++ remainder -1 % 4 is -1, so
wave falls through to the default branch and returns 0, while selection
by the mathematical type mod 4 = 3 would give the square shape, whose
value at phase 3/4 is 1. -/
theorem wave_negative_type_cex :
    wave (3 / 4) (-1) = 0 ∧ waveSpecSelect (3 / 4) (-1) = 1 ∧
      wave (3 / 4) (-1) ≠ waveSpecSelect (3 / 4) (-1) := by
  have hfloor : ⌊(3 / 4 : ℝ)⌋ = 0 := by
    apply Int.floor_eq_zero_iff.mpr
    constructor <;> norm_num
  have h1 : wave (3 / 4) (-1) = 0 := by
    have hm : Int.tmod (-1) 4 = -1 := by decide
    simp only [wave, hm]
    norm_num
  have h2 : waveSpecSelect (3 / 4) (-1) = 1 := by
    have hm : Int.emod (-1) 4 = 3 := by decide
    simp only [waveSpecSelect, hm]
    norm_num [square, hfloor]
  refine ⟨h1, h2, ?_⟩
  rw [h1, h2]
  norm_num

/-- Modelled from src/Options.cpp fillOptions (lines 10-35): the decay
option's value is the supplied command-line value when present and the
default 50 otherwise.  boost command-line parsing itself is abstracted
as the optional supplied value. -/
def fillOptionsDecay (supplied : Option ℚ) : ℚ :=
  supplied.getD 50

/-- addNote never changes the decay field. -/
theorem addNote_decay (st : AudioData) (f v : ℚ) :
    (addNote st f v).decay = st.decay := by
  cases h : st.notes <;> simp [addNote, h]

/-- The decay rate is 50 in every reachable state. -/
theorem reach_decay (st : AudioData) (h : Reach st) : st.decay = 50 := by
  induction h with
  | init dt hdt => rfl
  | add st f v h ih => rw [addNote_decay, ih]
  | sample st c hc0 hc1 h ih => exact ih

/-- C8 counterexample: supplying 30 for the decay option makes
fillOptions store 30, but the state built by openAudio - the one the
envelope smoother reads its decay rate from - carries the hard-coded
50, because main never calls fillOptions. -/
theorem decay_option_not_consumed :
    fillOptionsDecay (some 30) = 30 ∧ (initState (1 / 48000)).decay = 50 ∧
      (initState (1 / 48000)).decay ≠ fillOptionsDecay (some 30) := by
  refine ⟨rfl, rfl, ?_⟩
  show (50 : ℚ) ≠ 30
  norm_num

/-- C8 (amended): the decay rate consumed by the envelope smoother is
the hard-coded 50 in the initial state and in every reachable state -
equal to the decay option's default value but independent of any
supplied value, which fillOptions parses and returns unused. -/
theorem decay_hardcoded :
    (∀ dt : ℚ, (initState dt).decay = 50) ∧
      (∀ st, Reach st → st.decay = 50) ∧
      fillOptionsDecay none = 50 ∧
      ∀ d : ℚ, fillOptionsDecay (some d) = d :=
  ⟨fun _ => rfl, reach_decay, rfl, fun _ => rfl⟩

/-- Instantiation of the amended decay theorem at the initial state,
discharging the reachability hypothesis. -/
theorem decay_hardcoded_witness :
    (0 : ℚ) < 1 / 48000 ∧ (initState (1 / 48000)).decay = 50 :=
  ⟨by norm_num,
    decay_hardcoded.2.1 (initState (1 / 48000)) (Reach.init (1 / 48000) (by norm_num))⟩

end Theremin
